import Mathlib

/-!
Shallow embedding of the block-cipher core of the `coursera-crypto` repository
(AES field arithmetic, cipher state, key schedule, cipher driver, CBC/CTR modes
of operation and PKCS#7 padding), together with theorems settling the claims
about its specification.

Bytes are modelled as `Nat` values; every place where the Rust `u8`/`usize`
arithmetic wraps is modelled with an explicit `% 2^w`.
-/

namespace CourseraCrypto

/-! #### Definitions -/

/-! ### GF(2^8) byte arithmetic (src/aes/gf_byte.rs) -/

namespace GFByte

/-- `add` for `GFByte` (impl Add): bitwise XOR of the two bytes. -/
def add (a b : Nat) : Nat := a ^^^ b

/-- The `mul_x` closure inside `GFByte::mul`: check the high-order bit
(`b >> 7`), shift left by one bit (`b << 1`, truncated to `u8`, i.e.
`(2*b) % 256`), and conditionally XOR with `0x1b`. -/
def mul_x (b : Nat) : Nat := ((2 * b) % 256) ^^^ ((b / 128) * 0x1b)

/-- The 8-iteration accumulation loop of `GFByte::mul`: the low-order bit of
the remainder decides whether the current multiplier is XORed into the
accumulator; the multiplier is doubled and the remainder shifted right. -/
def mulAux : Nat → Nat → Nat → Nat → Nat
  | 0, acc, _, _ => acc
  | n + 1, acc, rem, mult => mulAux n (acc ^^^ (mult * (rem % 2))) (rem / 2) (mul_x mult)

/-- `mul` for `GFByte` (impl Mul): `b1` is the multiplicand being doubled,
`b2` drives the bits (8 iterations, accumulator starts at 0). -/
def mul (b1 b2 : Nat) : Nat := mulAux 8 0 b2 b1

end GFByte

/-! ### The AES S-boxes (src/block_ciphers/aes/mod.rs) -/
/-- The encryption S-box `ENC_SBOX`, transcribed verbatim. -/
def ENC_SBOX : List Nat :=
  [0x63, 0x7c, 0x77, 0x7b, 0xf2, 0x6b, 0x6f, 0xc5,
   0x30, 0x01, 0x67, 0x2b, 0xfe, 0xd7, 0xab, 0x76,
   0xca, 0x82, 0xc9, 0x7d, 0xfa, 0x59, 0x47, 0xf0,
   0xad, 0xd4, 0xa2, 0xaf, 0x9c, 0xa4, 0x72, 0xc0,
   0xb7, 0xfd, 0x93, 0x26, 0x36, 0x3f, 0xf7, 0xcc,
   0x34, 0xa5, 0xe5, 0xf1, 0x71, 0xd8, 0x31, 0x15,
   0x04, 0xc7, 0x23, 0xc3, 0x18, 0x96, 0x05, 0x9a,
   0x07, 0x12, 0x80, 0xe2, 0xeb, 0x27, 0xb2, 0x75,
   0x09, 0x83, 0x2c, 0x1a, 0x1b, 0x6e, 0x5a, 0xa0,
   0x52, 0x3b, 0xd6, 0xb3, 0x29, 0xe3, 0x2f, 0x84,
   0x53, 0xd1, 0x00, 0xed, 0x20, 0xfc, 0xb1, 0x5b,
   0x6a, 0xcb, 0xbe, 0x39, 0x4a, 0x4c, 0x58, 0xcf,
   0xd0, 0xef, 0xaa, 0xfb, 0x43, 0x4d, 0x33, 0x85,
   0x45, 0xf9, 0x02, 0x7f, 0x50, 0x3c, 0x9f, 0xa8,
   0x51, 0xa3, 0x40, 0x8f, 0x92, 0x9d, 0x38, 0xf5,
   0xbc, 0xb6, 0xda, 0x21, 0x10, 0xff, 0xf3, 0xd2,
   0xcd, 0x0c, 0x13, 0xec, 0x5f, 0x97, 0x44, 0x17,
   0xc4, 0xa7, 0x7e, 0x3d, 0x64, 0x5d, 0x19, 0x73,
   0x60, 0x81, 0x4f, 0xdc, 0x22, 0x2a, 0x90, 0x88,
   0x46, 0xee, 0xb8, 0x14, 0xde, 0x5e, 0x0b, 0xdb,
   0xe0, 0x32, 0x3a, 0x0a, 0x49, 0x06, 0x24, 0x5c,
   0xc2, 0xd3, 0xac, 0x62, 0x91, 0x95, 0xe4, 0x79,
   0xe7, 0xc8, 0x37, 0x6d, 0x8d, 0xd5, 0x4e, 0xa9,
   0x6c, 0x56, 0xf4, 0xea, 0x65, 0x7a, 0xae, 0x08,
   0xba, 0x78, 0x25, 0x2e, 0x1c, 0xa6, 0xb4, 0xc6,
   0xe8, 0xdd, 0x74, 0x1f, 0x4b, 0xbd, 0x8b, 0x8a,
   0x70, 0x3e, 0xb5, 0x66, 0x48, 0x03, 0xf6, 0x0e,
   0x61, 0x35, 0x57, 0xb9, 0x86, 0xc1, 0x1d, 0x9e,
   0xe1, 0xf8, 0x98, 0x11, 0x69, 0xd9, 0x8e, 0x94,
   0x9b, 0x1e, 0x87, 0xe9, 0xce, 0x55, 0x28, 0xdf,
   0x8c, 0xa1, 0x89, 0x0d, 0xbf, 0xe6, 0x42, 0x68,
   0x41, 0x99, 0x2d, 0x0f, 0xb0, 0x54, 0xbb, 0x16]

/-- The decryption S-box `DEC_SBOX`, transcribed verbatim. -/
def DEC_SBOX : List Nat :=
  [0x52, 0x09, 0x6a, 0xd5, 0x30, 0x36, 0xa5, 0x38,
   0xbf, 0x40, 0xa3, 0x9e, 0x81, 0xf3, 0xd7, 0xfb,
   0x7c, 0xe3, 0x39, 0x82, 0x9b, 0x2f, 0xff, 0x87,
   0x34, 0x8e, 0x43, 0x44, 0xc4, 0xde, 0xe9, 0xcb,
   0x54, 0x7b, 0x94, 0x32, 0xa6, 0xc2, 0x23, 0x3d,
   0xee, 0x4c, 0x95, 0x0b, 0x42, 0xfa, 0xc3, 0x4e,
   0x08, 0x2e, 0xa1, 0x66, 0x28, 0xd9, 0x24, 0xb2,
   0x76, 0x5b, 0xa2, 0x49, 0x6d, 0x8b, 0xd1, 0x25,
   0x72, 0xf8, 0xf6, 0x64, 0x86, 0x68, 0x98, 0x16,
   0xd4, 0xa4, 0x5c, 0xcc, 0x5d, 0x65, 0xb6, 0x92,
   0x6c, 0x70, 0x48, 0x50, 0xfd, 0xed, 0xb9, 0xda,
   0x5e, 0x15, 0x46, 0x57, 0xa7, 0x8d, 0x9d, 0x84,
   0x90, 0xd8, 0xab, 0x00, 0x8c, 0xbc, 0xd3, 0x0a,
   0xf7, 0xe4, 0x58, 0x05, 0xb8, 0xb3, 0x45, 0x06,
   0xd0, 0x2c, 0x1e, 0x8f, 0xca, 0x3f, 0x0f, 0x02,
   0xc1, 0xaf, 0xbd, 0x03, 0x01, 0x13, 0x8a, 0x6b,
   0x3a, 0x91, 0x11, 0x41, 0x4f, 0x67, 0xdc, 0xea,
   0x97, 0xf2, 0xcf, 0xce, 0xf0, 0xb4, 0xe6, 0x73,
   0x96, 0xac, 0x74, 0x22, 0xe7, 0xad, 0x35, 0x85,
   0xe2, 0xf9, 0x37, 0xe8, 0x1c, 0x75, 0xdf, 0x6e,
   0x47, 0xf1, 0x1a, 0x71, 0x1d, 0x29, 0xc5, 0x89,
   0x6f, 0xb7, 0x62, 0x0e, 0xaa, 0x18, 0xbe, 0x1b,
   0xfc, 0x56, 0x3e, 0x4b, 0xc6, 0xd2, 0x79, 0x20,
   0x9a, 0xdb, 0xc0, 0xfe, 0x78, 0xcd, 0x5a, 0xf4,
   0x1f, 0xdd, 0xa8, 0x33, 0x88, 0x07, 0xc7, 0x31,
   0xb1, 0x12, 0x10, 0x59, 0x27, 0x80, 0xec, 0x5f,
   0x60, 0x51, 0x7f, 0xa9, 0x19, 0xb5, 0x4a, 0x0d,
   0x2d, 0xe5, 0x7a, 0x9f, 0x93, 0xc9, 0x9c, 0xef,
   0xa0, 0xe0, 0x3b, 0x4d, 0xae, 0x2a, 0xf5, 0xb0,
   0xc8, 0xeb, 0xbb, 0x3c, 0x83, 0x53, 0x99, 0x61,
   0x17, 0x2b, 0x04, 0x7e, 0xba, 0x77, 0xd6, 0x26,
   0xe1, 0x69, 0x14, 0x63, 0x55, 0x21, 0x0c, 0x7d]

/-- `GFByte::apply_s_box`: index the 256-entry table with the byte value. -/
def sboxApply (sb : List Nat) (b : Nat) : Nat := sb.getD b 0

/-! ### GF words (src/block_ciphers/aes/gf_word.rs) -/
/-- `GFWord`: four field bytes treated as a 4-term polynomial. -/
structure GFWord where
  b0 : Nat
  b1 : Nat
  b2 : Nat
  b3 : Nat
  deriving DecidableEq, Repr

namespace GFWord

/-- `GFWord::new`. -/
def new (b0 b1 b2 b3 : Nat) : GFWord := ⟨b0, b1, b2, b3⟩

/-- `GFWord::zero`. -/
def zero : GFWord := ⟨0, 0, 0, 0⟩

/-- `add` for `GFWord` (impl Add): coefficient-wise `GFByte` addition (XOR). -/
def add (a b : GFWord) : GFWord :=
  ⟨a.b0 ^^^ b.b0, a.b1 ^^^ b.b1, a.b2 ^^^ b.b2, a.b3 ^^^ b.b3⟩

/-- `mul` for `GFWord` (impl Mul): the fixed circulant convolution modulo
`x^4 + 1`, coefficients multiplied in GF(2^8), exactly as written in the
source (`a[0]*b[0] + a[3]*b[1] + a[2]*b[2] + a[1]*b[3]`, ...). -/
def mul (a b : GFWord) : GFWord :=
  ⟨GFByte.mul a.b0 b.b0 ^^^ GFByte.mul a.b3 b.b1 ^^^ GFByte.mul a.b2 b.b2 ^^^ GFByte.mul a.b1 b.b3,
   GFByte.mul a.b1 b.b0 ^^^ GFByte.mul a.b0 b.b1 ^^^ GFByte.mul a.b3 b.b2 ^^^ GFByte.mul a.b2 b.b3,
   GFByte.mul a.b2 b.b0 ^^^ GFByte.mul a.b1 b.b1 ^^^ GFByte.mul a.b0 b.b2 ^^^ GFByte.mul a.b3 b.b3,
   GFByte.mul a.b3 b.b0 ^^^ GFByte.mul a.b2 b.b1 ^^^ GFByte.mul a.b1 b.b2 ^^^ GFByte.mul a.b0 b.b3⟩

/-- `GFWord::rot_word`: cyclic one-byte left rotation. -/
def rot_word (w : GFWord) : GFWord := ⟨w.b1, w.b2, w.b3, w.b0⟩

/-- `GFWord::apply_s_box` / `GFWord::sub_word`: the encryption S-box applied
to every byte of the word. -/
def sub_word (w : GFWord) : GFWord :=
  ⟨sboxApply ENC_SBOX w.b0, sboxApply ENC_SBOX w.b1,
   sboxApply ENC_SBOX w.b2, sboxApply ENC_SBOX w.b3⟩

/-- Well-formedness: all four coefficients are bytes (`u8` in the source). -/
def Wf (w : GFWord) : Prop := w.b0 < 256 ∧ w.b1 < 256 ∧ w.b2 < 256 ∧ w.b3 < 256

instance (w : GFWord) : Decidable w.Wf := by
  unfold Wf
  infer_instance

/-- The MixColumns constant `a(x) = 3*x^3 + x^2 + x + 2` from
`State::mix_columns`. -/
def mixColumnConst : GFWord := new 0x02 0x01 0x01 0x03

/-- The InvMixColumns constant `inv_a(x) = 0x0b*x^3 + 0x0d*x^2 + 0x09*x + 0x0e`
from `State::inv_mix_columns`. -/
def invMixColumnConst : GFWord := new 0x0e 0x09 0x0d 0x0b

end GFWord

/-! ### The AES state (src/aes/state.rs) -/
/-- `State`: 4 words of 32 bits acting as a column-major 4x4 array of bytes
(word `i` holds rows 0..3 of column `i`). -/
structure State where
  w0 : GFWord
  w1 : GFWord
  w2 : GFWord
  w3 : GFWord
  deriving DecidableEq, Repr

namespace State

/-- `From<Input> for State`: build the four columns from the 16 input bytes. -/
def ofBlock (input : List Nat) : State :=
  ⟨GFWord.new (input.getD 0 0) (input.getD 1 0) (input.getD 2 0) (input.getD 3 0),
   GFWord.new (input.getD 4 0) (input.getD 5 0) (input.getD 6 0) (input.getD 7 0),
   GFWord.new (input.getD 8 0) (input.getD 9 0) (input.getD 10 0) (input.getD 11 0),
   GFWord.new (input.getD 12 0) (input.getD 13 0) (input.getD 14 0) (input.getD 15 0)⟩

/-- `Into<Output> for State`: serialize the four columns back to 16 bytes. -/
def toBlock (s : State) : List Nat :=
  [s.w0.b0, s.w0.b1, s.w0.b2, s.w0.b3,
   s.w1.b0, s.w1.b1, s.w1.b2, s.w1.b3,
   s.w2.b0, s.w2.b1, s.w2.b2, s.w2.b3,
   s.w3.b0, s.w3.b1, s.w3.b2, s.w3.b3]

/-- `State::sub_bytes`: the encryption S-box applied to every byte. -/
def sub_bytes (s : State) : State :=
  ⟨s.w0.sub_word, s.w1.sub_word, s.w2.sub_word, s.w3.sub_word⟩

/-- `State::inv_sub_bytes`: the decryption S-box applied to every byte. -/
def inv_sub_bytes (s : State) : State :=
  ⟨⟨sboxApply DEC_SBOX s.w0.b0, sboxApply DEC_SBOX s.w0.b1,
    sboxApply DEC_SBOX s.w0.b2, sboxApply DEC_SBOX s.w0.b3⟩,
   ⟨sboxApply DEC_SBOX s.w1.b0, sboxApply DEC_SBOX s.w1.b1,
    sboxApply DEC_SBOX s.w1.b2, sboxApply DEC_SBOX s.w1.b3⟩,
   ⟨sboxApply DEC_SBOX s.w2.b0, sboxApply DEC_SBOX s.w2.b1,
    sboxApply DEC_SBOX s.w2.b2, sboxApply DEC_SBOX s.w2.b3⟩,
   ⟨sboxApply DEC_SBOX s.w3.b0, sboxApply DEC_SBOX s.w3.b1,
    sboxApply DEC_SBOX s.w3.b2, sboxApply DEC_SBOX s.w3.b3⟩⟩

/-- `State::shift_rows`: row `r` (byte index `r` of each word) is rotated left
by `r` columns, i.e. the unrolling of `shift_row_left(i, i)` for `i = 0..3`
(row 3 being `shift_row_right(3, 1)`). -/
def shift_rows (s : State) : State :=
  ⟨⟨s.w0.b0, s.w1.b1, s.w2.b2, s.w3.b3⟩,
   ⟨s.w1.b0, s.w2.b1, s.w3.b2, s.w0.b3⟩,
   ⟨s.w2.b0, s.w3.b1, s.w0.b2, s.w1.b3⟩,
   ⟨s.w3.b0, s.w0.b1, s.w1.b2, s.w2.b3⟩⟩

/-- `State::inv_shift_rows`: row `r` is rotated right by `r` columns, i.e. the
unrolling of `shift_row_right(i, i)` for `i = 0..3`. -/
def inv_shift_rows (s : State) : State :=
  ⟨⟨s.w0.b0, s.w3.b1, s.w2.b2, s.w1.b3⟩,
   ⟨s.w1.b0, s.w0.b1, s.w3.b2, s.w2.b3⟩,
   ⟨s.w2.b0, s.w1.b1, s.w0.b2, s.w3.b3⟩,
   ⟨s.w3.b0, s.w2.b1, s.w1.b2, s.w0.b3⟩⟩

/-- `State::mix_columns`: every column is multiplied by the mix constant. -/
def mix_columns (s : State) : State :=
  ⟨s.w0.mul GFWord.mixColumnConst, s.w1.mul GFWord.mixColumnConst,
   s.w2.mul GFWord.mixColumnConst, s.w3.mul GFWord.mixColumnConst⟩

/-- `State::inv_mix_columns`: every column is multiplied by the declared
inverse constant. -/
def inv_mix_columns (s : State) : State :=
  ⟨s.w0.mul GFWord.invMixColumnConst, s.w1.mul GFWord.invMixColumnConst,
   s.w2.mul GFWord.invMixColumnConst, s.w3.mul GFWord.invMixColumnConst⟩

/-- `State::add_round_key`: XOR each column with the corresponding word of the
4-word round-key slice (`zip` semantics: a missing word leaves the column
unchanged, which XOR with the zero word models exactly). -/
def add_round_key (s : State) (round_keys : List GFWord) : State :=
  ⟨s.w0.add (round_keys.getD 0 GFWord.zero),
   s.w1.add (round_keys.getD 1 GFWord.zero),
   s.w2.add (round_keys.getD 2 GFWord.zero),
   s.w3.add (round_keys.getD 3 GFWord.zero)⟩

/-- Well-formedness: all 16 bytes of the state are below 256. -/
def Wf (s : State) : Prop := s.w0.Wf ∧ s.w1.Wf ∧ s.w2.Wf ∧ s.w3.Wf

instance (s : State) : Decidable s.Wf := by
  unfold Wf
  infer_instance

/-- A round-key slice whose words are all well-formed. -/
def WfKeys (ks : List GFWord) : Prop := ∀ w ∈ ks, w.Wf

end State

/-! ### Key expansion (src/block_ciphers/aes/mod.rs, `key_expansion`) -/
/-- The round-constant table `r_con` (index 0 reserved/unused). -/
def r_con : List GFWord :=
  [GFWord.zero, GFWord.new 0x01 0 0 0,
   GFWord.new 0x02 0 0 0, GFWord.new 0x04 0 0 0,
   GFWord.new 0x08 0 0 0, GFWord.new 0x10 0 0 0,
   GFWord.new 0x20 0 0 0, GFWord.new 0x40 0 0 0,
   GFWord.new 0x80 0 0 0, GFWord.new 0x1b 0 0 0,
   GFWord.new 0x36 0 0 0]

/-- The `temp` transformation of one key-expansion iteration: rotate, then
substitute, then XOR the round constant when `i % n_k == 0`; substitute alone
when `n_k > 6 && i % n_k == 4`; unchanged otherwise. -/
def keyExpTemp (n_k i : Nat) (prev : GFWord) : GFWord :=
  if i % n_k = 0 then (prev.rot_word.sub_word).add (r_con.getD (i / n_k) GFWord.zero)
  else if 6 < n_k ∧ i % n_k = 4 then prev.sub_word
  else prev

/-- One iteration of the expansion loop: `w[i] = w[i-n_k] + temp(w[i-1])`,
appended to the words produced so far. -/
def keyExpStep (n_k : Nat) (w : List GFWord) (i : Nat) : List GFWord :=
  w ++ [(w.getD (i - n_k) GFWord.zero).add (keyExpTemp n_k i (w.getD (i - 1) GFWord.zero))]

/-- `key_expansion`: initialize `w[0..n_k]` by word-slicing the key bytes,
then run the expansion recursion for `i` in `n_k .. N_B*(n_r+1)`, with
`n_k = key.len()/4` and `n_r = n_k + 6`. -/
def key_expansion (key : List Nat) : List GFWord :=
  let n_k := key.length / 4
  let n_r := n_k + 6
  let init := (List.range n_k).map (fun i =>
    GFWord.new (key.getD (4*i) 0) (key.getD (4*i+1) 0) (key.getD (4*i+2) 0) (key.getD (4*i+3) 0))
  (List.range' n_k (4 * (n_r + 1) - n_k)).foldl (keyExpStep n_k) init

/-! ### Cipher driver (src/block_ciphers/aes/mod.rs, `cipher`/`inv_cipher`) -/
/-- The round-key slice `round_keys[(round*N_B)..((round+1)*N_B)]`. -/
def keySlice (round_keys : List GFWord) (round : Nat) : List GFWord :=
  (round_keys.drop (4 * round)).take 4

/-- The body of one forward encryption round:
SubBytes, ShiftRows, MixColumns, AddRoundKey. -/
def encRound (round_keys : List GFWord) (s : State) (round : Nat) : State :=
  (s.sub_bytes.shift_rows.mix_columns).add_round_key (keySlice round_keys round)

/-- `cipher`: AddRoundKey(0), rounds `1..n_r-1`, then the final
SubBytes/ShiftRows/AddRoundKey(n_r), with `n_r = round_keys.len()/N_B - 1`. -/
def cipher (input : List Nat) (round_keys : List GFWord) : List Nat :=
  let n_r := round_keys.length / 4 - 1
  let s0 := (State.ofBlock input).add_round_key (keySlice round_keys 0)
  let s1 := (List.range' 1 (n_r - 1)).foldl (encRound round_keys) s0
  ((s1.sub_bytes.shift_rows).add_round_key (keySlice round_keys n_r)).toBlock

/-- The body of one inverse round:
InvShiftRows, InvSubBytes, AddRoundKey, InvMixColumns. -/
def invRound (round_keys : List GFWord) (s : State) (round : Nat) : State :=
  ((s.inv_shift_rows.inv_sub_bytes).add_round_key (keySlice round_keys round)).inv_mix_columns

/-- `inv_cipher`: AddRoundKey(n_r), inverse rounds for `round` descending
`n_r-1..1`, then the final InvShiftRows/InvSubBytes/AddRoundKey(0). -/
def inv_cipher (input : List Nat) (round_keys : List GFWord) : List Nat :=
  let n_r := round_keys.length / 4 - 1
  let s0 := (State.ofBlock input).add_round_key (keySlice round_keys n_r)
  let s1 := ((List.range' 1 (n_r - 1)).reverse).foldl (invRound round_keys) s0
  ((s1.inv_shift_rows.inv_sub_bytes).add_round_key (keySlice round_keys 0)).toBlock

/-! ### Key-expansion invariants (claim C5) -/
/-- The initial `n_k` words of the expansion: the key bytes, word-sliced. -/
def keyExpInit (key : List Nat) : List GFWord :=
  (List.range (key.length / 4)).map (fun i =>
    GFWord.new (key.getD (4*i) 0) (key.getD (4*i+1) 0) (key.getD (4*i+2) 0) (key.getD (4*i+3) 0))

/-- The expansion after `m` loop iterations. -/
def keyExpPartial (key : List Nat) (m : Nat) : List GFWord :=
  (List.range' (key.length / 4) m).foldl (keyExpStep (key.length / 4)) (keyExpInit key)

/-! ### Modes of operation (src/block_ciphers/modes.rs) -/
/-- `inplace_xor_bytes` / per-byte XOR (the Rust `zip` truncates at the
shorter operand). -/
def xorBytes (a b : List Nat) : List Nat := List.zipWith (fun x y => x ^^^ y) a b

/-- `cbc_128u8`, consuming the list of (padded) input blocks: XOR the block
with the last ciphertext (initially the IV), encrypt, emit, and chain. -/
def cbc_128u8 (keyed_cipher : List Nat → List Nat) (init_vector : List Nat) :
    List (List Nat) → List Nat
  | [] => []
  | block :: rest =>
    let c := keyed_cipher (xorBytes block init_vector)
    c ++ cbc_128u8 keyed_cipher c rest

/-- The exact chunking `input.chunks(BLOCK_LEN_128_U8)` used by
`inv_cbc_128u8`; it is only reached once the length has been checked to be a
multiple of 16, so all chunks are full. -/
def chunks16 (input : List Nat) : List (List Nat) :=
  (List.range (input.length / 16)).map (fun k => (input.drop (16 * k)).take 16)

/-- The block-decryption map of `inv_cbc_128u8`: decrypt each ciphertext
block, XOR it with the previous raw ciphertext block (IV for the first), and
advance the cursor to the just-consumed ciphertext block. -/
def invCbcBlocks (keyed_inv_cipher : List Nat → List Nat) (last_ciphertext : List Nat) :
    List (List Nat) → List (List Nat)
  | [] => []
  | cblock :: rest =>
    xorBytes (keyed_inv_cipher cblock) last_ciphertext ::
      invCbcBlocks keyed_inv_cipher cblock rest

/-- `inv_cbc_128u8`.  The Rust function returns `Option<Vec<u8>>` and can
additionally panic on the `output_vec[input_len-1]` indexing; the outer
`Option` models that panic (`none` = index out of bounds), the inner one the
Rust result (`some none` = format-error `None`, `some (some m)` = `Some(m)`).
`Vec::truncate(input_len - padding_bytes)` performs the subtraction on
`usize`, modelled by the explicit wrap modulo `2^64`. -/
def inv_cbc_128u8 (keyed_inv_cipher : List Nat → List Nat) (init_vector : List Nat)
    (input : List Nat) : Option (Option (List Nat)) :=
  if input.length % 16 ≠ 0 then some none
  else
    match ((invCbcBlocks keyed_inv_cipher init_vector (chunks16 input)).join)[input.length - 1]? with
    | none => none
    | some padding_bytes =>
      some (some (((invCbcBlocks keyed_inv_cipher init_vector (chunks16 input)).join).take
        ((input.length + 2 ^ 64 - padding_bytes) % 2 ^ 64)))

/-- The carry loop of `next_counter` in `ctr_128u8`: increment the byte at
`index`; on overflow move to the previous byte, wrapping from index 0 back to
index 15.  The loop runs at most 17 iterations (16 carries, then the wrapped
byte — just set to 0 — absorbs the increment), so the fuel of 17 makes the
embedding total without changing its value. -/
def incrLoop : Nat → List Nat → Nat → List Nat
  | 0, counter, _ => counter
  | fuel + 1, counter, index =>
    let old := counter.getD index 0
    let counter' := counter.set index ((old + 1) % 256)
    if old + 1 ≥ 256 then
      incrLoop fuel counter' (if index ≠ 0 then index - 1 else 15)
    else counter'

/-- One `next_counter` increment, starting at the last byte. -/
def incrCounter (counter : List Nat) : List Nat := incrLoop 17 counter 15

/-- `ctr_128u8`: for the `k`-th 16-byte chunk of the input, encrypt the
current counter (the IV incremented `k` times) and XOR it with the available
input bytes of the chunk. -/
def ctr_128u8 (keyed_cipher : List Nat → List Nat) (init_vector : List Nat)
    (input : List Nat) : List Nat :=
  ((List.range ((input.length + 15) / 16)).map (fun k =>
    xorBytes ((input.drop (16 * k)).take 16)
      (keyed_cipher (Nat.iterate incrCounter k init_vector)))).join

/-! ### PKCS#7 padding (src/padding/pkcs7.rs) -/
/-- `PKCS7Padding128u8::next`, acting on the iterator state (the bytes not yet
consumed by the `chunks` iterator, and the `final_block_sent` flag): a
non-empty remainder yields its first up-to-16 bytes right-filled with the
number of missing bytes when the chunk is short (setting the flag); an
exhausted remainder yields one final block of sixteen 16s unless a padded
chunk was already sent. -/
def pkcs7Next : List Nat × Bool → Option (List Nat × (List Nat × Bool))
  | (raw, final_block_sent) =>
    match raw with
    | [] =>
      if final_block_sent then none
      else some (List.replicate 16 16, ([], true))
    | _ :: _ =>
      let slice := raw.take 16
      let remaining := 16 - slice.length
      some (slice ++ List.replicate remaining remaining,
        (raw.drop 16, final_block_sent || decide (0 < remaining)))

/-- Collect the iterator's blocks; the fuel strictly exceeds the number of
blocks the iterator can emit, so it never truncates the run. -/
def pkcs7Run : Nat → List Nat × Bool → List (List Nat)
  | 0, _ => []
  | fuel + 1, st =>
    match pkcs7Next st with
    | none => []
    | some (block, st') => block :: pkcs7Run fuel st'

/-- `PKCS7Padding128u8::new(bytes)` followed by collecting every block. -/
def pkcs7_blocks (bytes : List Nat) : List (List Nat) :=
  pkcs7Run (bytes.length / 16 + 2) (bytes, false)

/-- The `block_count` computed by `PKCS7Padding128u8::new` and reported by
`size_hint`. -/
def pkcs7_block_count (bytes : List Nat) : Nat := bytes.length / 16 + 1

/-- The `k`-th padded block in closed form: the `k`-th 16-byte chunk of the
message, right-filled with the pad value. -/
def pkcs7Block (msg : List Nat) (k : Nat) : List Nat :=
  (msg.drop (16 * k)).take 16 ++
    List.replicate (16 - ((msg.drop (16 * k)).take 16).length)
      (16 - ((msg.drop (16 * k)).take 16).length)

/-- Closed form of the whole padded block sequence. -/
def pkcs7Indexed (msg : List Nat) : List (List Nat) :=
  (List.range (msg.length / 16 + 1)).map (pkcs7Block msg)

set_option maxRecDepth 4096

/-! #### Theorems -/

namespace GFByte

theorem mul_x_lt (b : Nat) (h : b < 256) : mul_x b < 256 := by
  have h1 : (2 * b) % 256 < 256 := Nat.mod_lt _ (by norm_num)
  have h2 : b / 128 * 0x1b < 256 := by
    have : b / 128 < 2 := Nat.div_lt_of_lt_mul (by omega)
    omega
  have := Nat.xor_lt_two_pow (n := 8) h1 h2
  simpa using this

theorem mulAux_lt (n acc rem mult : Nat) (ha : acc < 256) (hm : mult < 256) :
    mulAux n acc rem mult < 256 := by
  induction n generalizing acc rem mult with
  | zero => simpa [mulAux] using ha
  | succ n ih =>
    have hb : mult * (rem % 2) < 256 := by
      have : rem % 2 ≤ 1 := Nat.le_of_lt_succ (Nat.mod_lt _ (by norm_num))
      calc mult * (rem % 2) ≤ mult * 1 := Nat.mul_le_mul_left _ this
        _ < 256 := by simpa using hm
    have hacc : acc ^^^ mult * (rem % 2) < 256 := by
      have := Nat.xor_lt_two_pow (n := 8) ha hb
      simpa using this
    exact ih _ _ _ hacc (mul_x_lt _ hm)

/-- `GFByte.mul` keeps its result inside a byte whenever the multiplicand is
a byte (the bit-driving operand need not be bounded). -/
theorem mul_lt (b1 b2 : Nat) (h : b1 < 256) : mul b1 b2 < 256 :=
  mulAux_lt 8 0 b2 b1 (by norm_num) h

theorem xor_lt_256 {a b : Nat} (ha : a < 256) (hb : b < 256) : a ^^^ b < 256 := by
  have := Nat.xor_lt_two_pow (n := 8) ha hb
  simpa using this

theorem xor_xor_xor_comm (a b c d : Nat) :
    (a ^^^ b) ^^^ (c ^^^ d) = (a ^^^ c) ^^^ (b ^^^ d) := by
  apply Nat.eq_of_testBit_eq
  intro i
  simp only [Nat.testBit_xor]
  cases a.testBit i <;> cases b.testBit i <;> cases c.testBit i <;> cases d.testBit i <;> rfl

theorem xor_mod_two_pow (x y n : Nat) :
    (x ^^^ y) % 2 ^ n = (x % 2 ^ n) ^^^ (y % 2 ^ n) := by
  apply Nat.eq_of_testBit_eq
  intro i
  simp only [Nat.testBit_mod_two_pow, Nat.testBit_xor]
  cases Decidable.em (i < n) with
  | inl h => simp [h]
  | inr h => simp [h]

theorem two_mul_xor (x y : Nat) : 2 * (x ^^^ y) = (2 * x) ^^^ (2 * y) := by
  have h : ∀ z : Nat, 2 * z = z <<< 1 := by
    intro z
    simp [Nat.shiftLeft_eq, Nat.mul_comm]
  rw [h, h, h]
  apply Nat.eq_of_testBit_eq
  intro i
  simp only [Nat.testBit_shiftLeft, Nat.testBit_xor]
  cases Decidable.em (1 ≤ i) with
  | inl hle => simp [hle]
  | inr hle => simp [hle]

theorem div_two_pow_xor (x y n : Nat) : (x ^^^ y) / 2 ^ n = x / 2 ^ n ^^^ y / 2 ^ n := by
  have h : ∀ z : Nat, z / 2 ^ n = z >>> n := by
    intro z
    simp [Nat.shiftRight_eq_div_pow]
  rw [h, h, h]
  apply Nat.eq_of_testBit_eq
  intro i
  simp [Nat.testBit_shiftRight, Nat.testBit_xor]

/-- `mul_x` is linear over XOR on bytes. -/
theorem mul_x_xor (x y : Nat) (hx : x < 256) (hy : y < 256) :
    mul_x (x ^^^ y) = mul_x x ^^^ mul_x y := by
  unfold mul_x
  have hmod : (2 * (x ^^^ y)) % 256 = ((2 * x) % 256) ^^^ ((2 * y) % 256) := by
    rw [two_mul_xor]
    have := xor_mod_two_pow (2 * x) (2 * y) 8
    simpa using this
  have hdiv : (x ^^^ y) / 128 = x / 128 ^^^ y / 128 := by
    have := div_two_pow_xor x y 7
    simpa using this
  have hx7 : x / 128 < 2 := Nat.div_lt_of_lt_mul (by omega)
  have hy7 : y / 128 < 2 := Nat.div_lt_of_lt_mul (by omega)
  have hbit : (x / 128 ^^^ y / 128) * 0x1b = (x / 128) * 0x1b ^^^ (y / 128) * 0x1b := by
    interval_cases h1 : x / 128 <;> interval_cases h2 : y / 128 <;> rfl
  rw [hmod, hdiv, hbit]
  exact xor_xor_xor_comm _ _ _ _

theorem mulAux_xor (n : Nat) : ∀ a1 a2 rem m1 m2 : Nat, m1 < 256 → m2 < 256 →
    mulAux n (a1 ^^^ a2) rem (m1 ^^^ m2) = mulAux n a1 rem m1 ^^^ mulAux n a2 rem m2 := by
  induction n with
  | zero => intro a1 a2 rem m1 m2 _ _; rfl
  | succ n ih =>
    intro a1 a2 rem m1 m2 h1 h2
    show mulAux n ((a1 ^^^ a2) ^^^ (m1 ^^^ m2) * (rem % 2)) (rem / 2) (mul_x (m1 ^^^ m2)) = _
    have hbit : (m1 ^^^ m2) * (rem % 2) = m1 * (rem % 2) ^^^ m2 * (rem % 2) := by
      have : rem % 2 < 2 := Nat.mod_lt _ (by norm_num)
      interval_cases h : rem % 2 <;> simp
    rw [hbit, xor_xor_xor_comm, mul_x_xor _ _ h1 h2,
      ih _ _ _ _ _ (mul_x_lt _ h1) (mul_x_lt _ h2)]
    rfl

/-- `GFByte.mul` is linear over XOR in its first operand. -/
theorem mul_xor (x y c : Nat) (hx : x < 256) (hy : y < 256) :
    mul (x ^^^ y) c = mul x c ^^^ mul y c := by
  have := mulAux_xor 8 0 0 c x y hx hy
  simpa [mul] using this

theorem mulAux_zero (n : Nat) : ∀ rem, mulAux n 0 rem 0 = 0 := by
  induction n with
  | zero => intro rem; rfl
  | succ n ih =>
    intro rem
    show mulAux n (0 ^^^ 0 * (rem % 2)) (rem / 2) (mul_x 0) = 0
    simpa [mul_x] using ih (rem / 2)

/-- Multiplying the zero byte gives zero. -/
theorem zero_mul (c : Nat) : mul 0 c = 0 := mulAux_zero 8 c

end GFByte

theorem dec_enc_sbox (x : Nat) (h : x < 256) :
    sboxApply DEC_SBOX (sboxApply ENC_SBOX x) = x := by
  revert h
  revert x
  decide

theorem enc_sbox_lt (x : Nat) (h : x < 256) : sboxApply ENC_SBOX x < 256 := by
  revert h
  revert x
  decide

namespace GFWord

theorem wf_add {a b : GFWord} (ha : a.Wf) (hb : b.Wf) : (add a b).Wf :=
  ⟨GFByte.xor_lt_256 ha.1 hb.1, GFByte.xor_lt_256 ha.2.1 hb.2.1,
   GFByte.xor_lt_256 ha.2.2.1 hb.2.2.1, GFByte.xor_lt_256 ha.2.2.2 hb.2.2.2⟩

theorem wf_mul {a : GFWord} (b : GFWord) (ha : a.Wf) : (mul a b).Wf := by
  obtain ⟨h0, h1, h2, h3⟩ := ha
  refine ⟨?_, ?_, ?_, ?_⟩ <;>
    exact GFByte.xor_lt_256
      (GFByte.xor_lt_256 (GFByte.xor_lt_256 (GFByte.mul_lt _ _ (by assumption))
        (GFByte.mul_lt _ _ (by assumption))) (GFByte.mul_lt _ _ (by assumption)))
      (GFByte.mul_lt _ _ (by assumption))

theorem wf_zero : Wf zero := by decide

theorem add_zero (a : GFWord) : add a zero = a := by
  simp [add, zero]

theorem add_self_cancel (k a : GFWord) : add (add a k) k = a := by
  simp [add, Nat.xor_cancel_right]

theorem xor_left_comm (a b c : Nat) : a ^^^ (b ^^^ c) = b ^^^ (a ^^^ c) := by
  rw [← Nat.xor_assoc, Nat.xor_comm a b, Nat.xor_assoc]

/-- `mul` distributes over `add` in its first operand (all bytes bounded). -/
theorem add_mul (a b c : GFWord) (ha : a.Wf) (hb : b.Wf) :
    mul (add a b) c = add (mul a c) (mul b c) := by
  obtain ⟨ha0, ha1, ha2, ha3⟩ := ha
  obtain ⟨hb0, hb1, hb2, hb3⟩ := hb
  unfold mul add
  simp only [GFByte.mul_xor, ha0, ha1, ha2, ha3, hb0, hb1, hb2, hb3, GFWord.mk.injEq]
  refine ⟨?_, ?_, ?_, ?_⟩ <;>
    simp [Nat.xor_assoc, Nat.xor_comm, xor_left_comm]

theorem mul_consts_single0 : ∀ x < 256,
    mul (mul (GFWord.mk x 0 0 0) mixColumnConst) invMixColumnConst = GFWord.mk x 0 0 0 := by
  decide

theorem mul_consts_single1 : ∀ x < 256,
    mul (mul (GFWord.mk 0 x 0 0) mixColumnConst) invMixColumnConst = GFWord.mk 0 x 0 0 := by
  decide

theorem mul_consts_single2 : ∀ x < 256,
    mul (mul (GFWord.mk 0 0 x 0) mixColumnConst) invMixColumnConst = GFWord.mk 0 0 x 0 := by
  decide

theorem mul_consts_single3 : ∀ x < 256,
    mul (mul (GFWord.mk 0 0 0 x) mixColumnConst) invMixColumnConst = GFWord.mk 0 0 0 x := by
  decide

/-- Multiplying a well-formed word by the MixColumns constant and then by its
declared inverse gives the word back (by XOR-linearity of the circulant
product and a per-coordinate check over all 256 byte values). -/
theorem mul_consts_cancel (w : GFWord) (hw : w.Wf) :
    mul (mul w mixColumnConst) invMixColumnConst = w := by
  obtain ⟨h0, h1, h2, h3⟩ := hw
  have hA : (GFWord.mk w.b0 0 0 0).Wf := ⟨h0, by norm_num, by norm_num, by norm_num⟩
  have hB : (GFWord.mk 0 w.b1 0 0).Wf := ⟨by norm_num, h1, by norm_num, by norm_num⟩
  have hC : (GFWord.mk 0 0 w.b2 0).Wf := ⟨by norm_num, by norm_num, h2, by norm_num⟩
  have hD : (GFWord.mk 0 0 0 w.b3).Wf := ⟨by norm_num, by norm_num, by norm_num, h3⟩
  have e : w = add (GFWord.mk w.b0 0 0 0) (add (GFWord.mk 0 w.b1 0 0)
      (add (GFWord.mk 0 0 w.b2 0) (GFWord.mk 0 0 0 w.b3))) := by
    simp [add]
  conv_lhs => rw [e]
  rw [add_mul _ _ _ hA (wf_add hB (wf_add hC hD)),
    add_mul _ _ _ hB (wf_add hC hD),
    add_mul _ _ _ hC hD,
    add_mul _ _ _ (wf_mul _ hA) (wf_add (wf_mul _ hB) (wf_add (wf_mul _ hC) (wf_mul _ hD))),
    add_mul _ _ _ (wf_mul _ hB) (wf_add (wf_mul _ hC) (wf_mul _ hD)),
    add_mul _ _ _ (wf_mul _ hC) (wf_mul _ hD),
    mul_consts_single0 _ h0, mul_consts_single1 _ h1,
    mul_consts_single2 _ h2, mul_consts_single3 _ h3, ← e]

end GFWord

namespace State

theorem wf_sub_bytes {s : State} (h : s.Wf) : s.sub_bytes.Wf := by
  obtain ⟨⟨a0, a1, a2, a3⟩, ⟨b0, b1, b2, b3⟩, ⟨c0, c1, c2, c3⟩, ⟨d0, d1, d2, d3⟩⟩ := h
  exact ⟨⟨enc_sbox_lt _ a0, enc_sbox_lt _ a1, enc_sbox_lt _ a2, enc_sbox_lt _ a3⟩,
    ⟨enc_sbox_lt _ b0, enc_sbox_lt _ b1, enc_sbox_lt _ b2, enc_sbox_lt _ b3⟩,
    ⟨enc_sbox_lt _ c0, enc_sbox_lt _ c1, enc_sbox_lt _ c2, enc_sbox_lt _ c3⟩,
    ⟨enc_sbox_lt _ d0, enc_sbox_lt _ d1, enc_sbox_lt _ d2, enc_sbox_lt _ d3⟩⟩

theorem wf_shift_rows {s : State} (h : s.Wf) : s.shift_rows.Wf := by
  obtain ⟨⟨a0, a1, a2, a3⟩, ⟨b0, b1, b2, b3⟩, ⟨c0, c1, c2, c3⟩, ⟨d0, d1, d2, d3⟩⟩ := h
  exact ⟨⟨a0, b1, c2, d3⟩, ⟨b0, c1, d2, a3⟩, ⟨c0, d1, a2, b3⟩, ⟨d0, a1, b2, c3⟩⟩

theorem wf_mix_columns {s : State} (h : s.Wf) : s.mix_columns.Wf :=
  ⟨GFWord.wf_mul _ h.1, GFWord.wf_mul _ h.2.1, GFWord.wf_mul _ h.2.2.1,
   GFWord.wf_mul _ h.2.2.2⟩

theorem wf_getD_keys {ks : List GFWord} (h : WfKeys ks) (i : Nat) :
    (ks.getD i GFWord.zero).Wf := by
  rcases Decidable.em (i < ks.length) with hi | hi
  · have : ks.getD i GFWord.zero ∈ ks := by
      rw [List.getD_eq_getElem?_getD, List.getElem?_eq_getElem hi]
      exact List.getElem_mem _
    exact h _ this
  · rw [List.getD_eq_getElem?_getD, List.getElem?_eq_none (by omega)]
    exact GFWord.wf_zero

theorem wf_add_round_key {s : State} {ks : List GFWord} (h : s.Wf) (hk : WfKeys ks) :
    (s.add_round_key ks).Wf :=
  ⟨GFWord.wf_add h.1 (wf_getD_keys hk 0), GFWord.wf_add h.2.1 (wf_getD_keys hk 1),
   GFWord.wf_add h.2.2.1 (wf_getD_keys hk 2), GFWord.wf_add h.2.2.2 (wf_getD_keys hk 3)⟩

/-- InvShiftRows undoes ShiftRows. -/
theorem inv_shift_rows_shift_rows (s : State) : s.shift_rows.inv_shift_rows = s := rfl

/-- InvSubBytes undoes SubBytes on well-formed states. -/
theorem inv_sub_bytes_sub_bytes {s : State} (h : s.Wf) : s.sub_bytes.inv_sub_bytes = s := by
  obtain ⟨⟨a0, a1, a2, a3⟩, ⟨b0, b1, b2, b3⟩, ⟨c0, c1, c2, c3⟩, ⟨d0, d1, d2, d3⟩⟩ := h
  obtain ⟨⟨_, _, _, _⟩, ⟨_, _, _, _⟩, ⟨_, _, _, _⟩, ⟨_, _, _, _⟩⟩ := s
  simp only [sub_bytes, inv_sub_bytes, GFWord.sub_word, State.mk.injEq, GFWord.mk.injEq]
  refine ⟨⟨?_, ?_, ?_, ?_⟩, ⟨?_, ?_, ?_, ?_⟩, ⟨?_, ?_, ?_, ?_⟩, ⟨?_, ?_, ?_, ?_⟩⟩ <;>
    exact dec_enc_sbox _ (by assumption)

/-- AddRoundKey is self-inverse. -/
theorem add_round_key_add_round_key (s : State) (ks : List GFWord) :
    (s.add_round_key ks).add_round_key ks = s := by
  simp [add_round_key, GFWord.add_self_cancel]

/-- InvMixColumns undoes MixColumns on well-formed states. -/
theorem inv_mix_columns_mix_columns {s : State} (h : s.Wf) :
    s.mix_columns.inv_mix_columns = s := by
  obtain ⟨h0, h1, h2, h3⟩ := h
  obtain ⟨w0, w1, w2, w3⟩ := s
  simp only [mix_columns, inv_mix_columns, State.mk.injEq]
  exact ⟨GFWord.mul_consts_cancel _ h0, GFWord.mul_consts_cancel _ h1,
    GFWord.mul_consts_cancel _ h2, GFWord.mul_consts_cancel _ h3⟩

end State

theorem wf_keySlice {round_keys : List GFWord} (h : State.WfKeys round_keys) (r : Nat) :
    State.WfKeys (keySlice round_keys r) := by
  intro w hw
  exact h w (List.drop_subset _ _ (List.take_subset _ _ hw))

theorem wf_encRound {round_keys : List GFWord} (hk : State.WfKeys round_keys)
    {s : State} (hs : s.Wf) (r : Nat) : (encRound round_keys s r).Wf :=
  State.wf_add_round_key
    (State.wf_mix_columns (State.wf_shift_rows (State.wf_sub_bytes hs)))
    (wf_keySlice hk r)

theorem wf_enc_fold {round_keys : List GFWord} (hk : State.WfKeys round_keys)
    (l : List Nat) : ∀ {s : State}, s.Wf → (l.foldl (encRound round_keys) s).Wf := by
  induction l with
  | nil => intro s hs; exact hs
  | cons a l ih =>
    intro s hs
    exact ih (wf_encRound hk hs a)

/-- One inverse round undoes the matching forward round, shifted through
the SubBytes/ShiftRows prefix of the next round. -/
theorem invRound_encRound {round_keys : List GFWord} (hk : State.WfKeys round_keys)
    {s : State} (hs : s.Wf) (r : Nat) :
    invRound round_keys ((encRound round_keys s r).sub_bytes.shift_rows) r =
      s.sub_bytes.shift_rows := by
  unfold invRound encRound
  rw [State.inv_shift_rows_shift_rows,
    State.inv_sub_bytes_sub_bytes
      (State.wf_add_round_key
        (State.wf_mix_columns (State.wf_shift_rows (State.wf_sub_bytes hs)))
        (wf_keySlice hk r)),
    State.add_round_key_add_round_key,
    State.inv_mix_columns_mix_columns (State.wf_shift_rows (State.wf_sub_bytes hs))]

/-- The reversed inverse-round fold cancels the forward-round fold. -/
theorem fold_cancel {round_keys : List GFWord} (hk : State.WfKeys round_keys) :
    ∀ (n : Nat) {s : State}, s.Wf →
    ((List.range' 1 n).reverse).foldl (invRound round_keys)
        (((List.range' 1 n).foldl (encRound round_keys) s).sub_bytes.shift_rows) =
      s.sub_bytes.shift_rows := by
  intro n
  induction n with
  | zero => intro s _; rfl
  | succ n ih =>
    intro s hs
    rw [List.range'_1_concat, List.foldl_append, List.reverse_append]
    simp only [List.reverse_singleton, List.singleton_append, List.foldl_cons, List.foldl_nil]
    rw [invRound_encRound hk (wf_enc_fold hk _ hs) (1 + n)]
    exact ih hs

theorem ofBlock_toBlock (s : State) : State.ofBlock s.toBlock = s := rfl

theorem getD_lt_256 {l : List Nat} (h : ∀ b ∈ l, b < 256) (i : Nat) : l.getD i 0 < 256 := by
  rcases Decidable.em (i < l.length) with hi | hi
  · rw [List.getD_eq_getElem?_getD, List.getElem?_eq_getElem hi]
    exact h _ (List.getElem_mem _)
  · rw [List.getD_eq_getElem?_getD, List.getElem?_eq_none (by omega)]
    norm_num

theorem wf_ofBlock {input : List Nat} (h : ∀ b ∈ input, b < 256) :
    (State.ofBlock input).Wf := by
  refine ⟨⟨?_, ?_, ?_, ?_⟩, ⟨?_, ?_, ?_, ?_⟩, ⟨?_, ?_, ?_, ?_⟩, ⟨?_, ?_, ?_, ?_⟩⟩ <;>
    exact getD_lt_256 h _

theorem toBlock_ofBlock {input : List Nat} (h : input.length = 16) :
    (State.ofBlock input).toBlock = input := by
  apply List.ext_getElem
  · simp [State.toBlock, h]
  · intro i h1 h2
    have hi : i < 16 := by simpa [State.toBlock] using h1
    have hgd : ∀ j, (hj : j < input.length) → input[j]?.getD 0 = input.get ⟨j, hj⟩ := by
      intro j hj
      rw [List.getElem?_eq_getElem hj]
      rfl
    interval_cases i <;>
      simp only [State.toBlock, State.ofBlock, GFWord.new, List.getD_eq_getElem?_getD] <;>
      exact hgd _ (by omega)

/-- **C1**: for every 16-byte block and every valid round-key schedule (length
a positive multiple of 4 and greater than 4 words; all words are bytes, as
guaranteed by the `u8` representation), `inv_cipher (cipher block schedule)
schedule = block`.  The `assert` guards of the Rust functions are modelled by
the validity hypotheses. -/
theorem cipher_inv_cipher_roundtrip (input : List Nat) (round_keys : List GFWord)
    (hlen : input.length = 16) (hbytes : ∀ b ∈ input, b < 256)
    (hk4 : round_keys.length % 4 = 0) (hkgt : 4 < round_keys.length)
    (hkwf : State.WfKeys round_keys) :
    inv_cipher (cipher input round_keys) round_keys = input := by
  have hwf0 : ((State.ofBlock input).add_round_key (keySlice round_keys 0)).Wf :=
    State.wf_add_round_key (wf_ofBlock hbytes) (wf_keySlice hkwf 0)
  simp only [cipher, inv_cipher, ofBlock_toBlock]
  rw [State.add_round_key_add_round_key,
    fold_cancel hkwf _ hwf0,
    State.inv_shift_rows_shift_rows,
    State.inv_sub_bytes_sub_bytes hwf0,
    State.add_round_key_add_round_key]
  exact toBlock_ofBlock hlen

/-- Witness for C1: a concrete block and a concrete valid schedule. -/
theorem cipher_inv_cipher_roundtrip_witness :
    inv_cipher (cipher (List.range 16) (List.replicate 8 GFWord.zero))
        (List.replicate 8 GFWord.zero) = List.range 16 :=
  cipher_inv_cipher_roundtrip (List.range 16) (List.replicate 8 GFWord.zero)
    (by decide) (by decide) (by decide) (by decide)
    (by intro w hw; rw [List.eq_of_mem_replicate hw]; exact GFWord.wf_zero)

/-- **C8**: the word product of the mix-column constant (0x02,0x01,0x01,0x03)
and its declared inverse (0x0e,0x09,0x0d,0x0b) is the identity word
(1,0,0,0); consequently InvMixColumns after MixColumns is the identity on
every state (of bytes). -/
theorem mix_constants_inverse :
    GFWord.mul GFWord.mixColumnConst GFWord.invMixColumnConst = GFWord.new 1 0 0 0 ∧
    ∀ s : State, s.Wf → s.mix_columns.inv_mix_columns = s :=
  ⟨by decide, fun _ hs => State.inv_mix_columns_mix_columns hs⟩

/-- Witness for C8 at a concrete state. -/
theorem mix_constants_inverse_witness :
    (State.mk (GFWord.new 1 2 3 4) (GFWord.new 50 60 70 80)
        (GFWord.new 9 10 11 12) (GFWord.new 130 140 150 160)).mix_columns.inv_mix_columns =
      State.mk (GFWord.new 1 2 3 4) (GFWord.new 50 60 70 80)
        (GFWord.new 9 10 11 12) (GFWord.new 130 140 150 160) :=
  mix_constants_inverse.2 _ (by decide)

theorem key_expansion_as_steps (key : List Nat) :
    key_expansion key =
      keyExpPartial key (4 * (key.length / 4 + 6 + 1) - key.length / 4) := rfl

theorem keyExpPartial_succ (key : List Nat) (m : Nat) :
    keyExpPartial key (m + 1) =
      keyExpStep (key.length / 4) (keyExpPartial key m) (key.length / 4 + m) := by
  unfold keyExpPartial
  rw [List.range'_1_concat, List.foldl_append]
  rfl

theorem keyExpPartial_length (key : List Nat) (m : Nat) :
    (keyExpPartial key m).length = key.length / 4 + m := by
  induction m with
  | zero => simp [keyExpPartial, keyExpInit]
  | succ m ih =>
    rw [keyExpPartial_succ]
    simp only [keyExpStep, List.length_append, ih, List.length_singleton]
    omega

theorem keyExpPartial_stable (key : List Nat) (m m' : Nat) (h : m ≤ m') :
    ∀ i, i < key.length / 4 + m →
      (keyExpPartial key m')[i]? = (keyExpPartial key m)[i]? := by
  induction m', h using Nat.le_induction with
  | base => intro i _; rfl
  | succ m' hm ih =>
    intro i hi
    rw [keyExpPartial_succ, keyExpStep,
      List.getElem?_append_left (by rw [keyExpPartial_length]; omega)]
    exact ih i hi

theorem keyExpPartial_last (key : List Nat) (m : Nat) :
    (keyExpPartial key (m + 1))[key.length / 4 + m]? =
      some (((keyExpPartial key m).getD (key.length / 4 + m - key.length / 4) GFWord.zero).add
        (keyExpTemp (key.length / 4) (key.length / 4 + m)
          ((keyExpPartial key m).getD (key.length / 4 + m - 1) GFWord.zero))) := by
  rw [keyExpPartial_succ, keyExpStep,
    List.getElem?_append_right (by rw [keyExpPartial_length])]
  simp [keyExpPartial_length]

/-- **C5**: key expansion on a key of `n_k` words (`n_k` = 4, 6 or 8) yields
`Nb*(Nr+1)` words with `Nr = n_k+6`; the first `n_k` words slice the key bytes
verbatim, and every later word satisfies
`w[i] = w[i-n_k] + temp(w[i-1])`, with `temp` the rotate/substitute/XOR-round-
constant transformation when `i % n_k = 0`, substitution alone when
`n_k > 6 ∧ i % n_k = 4`, and the identity otherwise (see `keyExpTemp`). -/
theorem key_expansion_spec (key : List Nat) (n_k : Nat)
    (hset : n_k = 4 ∨ n_k = 6 ∨ n_k = 8) (hlen : key.length = 4 * n_k) :
    (key_expansion key).length = 4 * (n_k + 6 + 1) ∧
    (∀ i, i < n_k → (key_expansion key).getD i GFWord.zero =
      GFWord.new (key.getD (4*i) 0) (key.getD (4*i+1) 0)
        (key.getD (4*i+2) 0) (key.getD (4*i+3) 0)) ∧
    (∀ i, n_k ≤ i → i < 4 * (n_k + 6 + 1) →
      (key_expansion key).getD i GFWord.zero =
        ((key_expansion key).getD (i - n_k) GFWord.zero).add
          (keyExpTemp n_k i ((key_expansion key).getD (i - 1) GFWord.zero))) := by
  have hnk4 : 4 ≤ n_k := by rcases hset with h | h | h <;> omega
  have e : key.length / 4 = n_k := by omega
  have hM : 4 * (key.length / 4 + 6 + 1) - key.length / 4 =
      4 * (n_k + 6 + 1) - n_k := by omega
  refine ⟨?_, ?_, ?_⟩
  · rw [key_expansion_as_steps, keyExpPartial_length, e]
    omega
  · intro i hi
    rw [key_expansion_as_steps, List.getD_eq_getElem?_getD,
      keyExpPartial_stable key 0 _ (Nat.zero_le _) i (by omega)]
    show ((keyExpInit key)[i]?).getD GFWord.zero = _
    unfold keyExpInit
    rw [List.getElem?_map, List.getElem?_range (by omega)]
    rfl
  · intro i hge hlt
    have hm : i - n_k + 1 ≤ 4 * (key.length / 4 + 6 + 1) - key.length / 4 := by omega
    have hstep1 : (key_expansion key)[i]? = (keyExpPartial key (i - n_k + 1))[i]? := by
      rw [key_expansion_as_steps]
      exact keyExpPartial_stable key _ _ hm i (by omega)
    have hlast := keyExpPartial_last key (i - n_k)
    rw [e] at hlast
    rw [show n_k + (i - n_k) = i by omega] at hlast
    have hprev1 : (keyExpPartial key (i - n_k))[i - n_k]? = (key_expansion key)[i - n_k]? := by
      rw [key_expansion_as_steps]
      exact (keyExpPartial_stable key _ _ (by omega) _ (by omega)).symm
    have hprev2 : (keyExpPartial key (i - n_k))[i - 1]? = (key_expansion key)[i - 1]? := by
      rw [key_expansion_as_steps]
      exact (keyExpPartial_stable key _ _ (by omega) _ (by omega)).symm
    rw [List.getD_eq_getElem?_getD, hstep1, hlast, Option.getD_some]
    simp only [List.getD_eq_getElem?_getD, hprev1, hprev2]

/-- Witness for C5: the 128-bit case on a concrete key. -/
theorem key_expansion_spec_witness :
    (key_expansion (List.range 16)).length = 4 * (4 + 6 + 1) :=
  (key_expansion_spec (List.range 16) 4 (Or.inl rfl) (by decide)).1

theorem xorBytes_length (a b : List Nat) :
    (xorBytes a b).length = min a.length b.length := by
  simp [xorBytes]

theorem xorBytes_cancel (a b : List Nat) (h : a.length ≤ b.length) :
    xorBytes (xorBytes a b) b = a := by
  induction a generalizing b with
  | nil => simp [xorBytes]
  | cons x a ih =>
    cases b with
    | nil => simp at h
    | cons y b =>
      simp only [xorBytes, List.zipWith_cons_cons, Nat.xor_cancel_right]
      exact congrArg _ (ih b (by simpa using h))

theorem ctr_128u8_nil (kc : List Nat → List Nat) (iv : List Nat) :
    ctr_128u8 kc iv [] = [] := rfl

/-- Unfolding of `ctr_128u8` on a non-empty input: the first keystream block
comes from the IV, the rest from the incremented counter. -/
theorem ctr_128u8_cons (kc : List Nat → List Nat) (iv input : List Nat)
    (h : input ≠ []) :
    ctr_128u8 kc iv input =
      xorBytes (input.take 16) (kc iv) ++ ctr_128u8 kc (incrCounter iv) (input.drop 16) := by
  have hlen : 1 ≤ input.length := by
    cases input with
    | nil => simp at h
    | cons a l => simp
  have hchunks : (input.length + 15) / 16 = ((input.length - 16) + 15) / 16 + 1 := by
    omega
  unfold ctr_128u8
  rw [List.length_drop, hchunks, List.range_succ_eq_map]
  simp only [List.map_cons, List.flatten_cons, List.map_map, Nat.mul_zero, List.drop_zero,
    Function.iterate_zero, id_eq]
  congr 1
  congr 1
  apply List.map_congr_left
  intro k _
  simp only [Function.comp_apply, Function.iterate_succ_apply, List.drop_drop]
  have harg : 16 * (k + 1) = 16 + 16 * k := by ring
  rw [harg]

/-- **C10**: counter mode preserves the length of the input exactly, for
block-aligned and non-aligned lengths alike (the keyed block function always
returns a 16-byte block, per the Rust `Block128u8` type). -/
theorem ctr_128u8_length (kc : List Nat → List Nat) (iv input : List Nat)
    (hkc : ∀ b, (kc b).length = 16) :
    (ctr_128u8 kc iv input).length = input.length := by
  generalize hL : input.length = L
  induction L using Nat.strong_induction_on generalizing iv input with
  | _ L ih =>
    cases Decidable.em (input = []) with
    | inl he =>
      subst he
      rw [ctr_128u8_nil]
      exact hL
    | inr he =>
      have h1 : 1 ≤ input.length := by
        cases input with
        | nil => simp at he
        | cons a l => simp
      rw [ctr_128u8_cons kc iv input he]
      rw [List.length_append, xorBytes_length, hkc,
        ih (input.drop 16).length (by simp; omega) (incrCounter iv) (input.drop 16) rfl]
      simp only [List.length_take, List.length_drop]
      omega

/-- Witness for C10 at a concrete function, IV and input. -/
theorem ctr_128u8_length_witness :
    (ctr_128u8 (fun _ => List.replicate 16 0) (List.replicate 16 0) [5, 6, 7]).length =
      [5, 6, 7].length :=
  ctr_128u8_length _ _ _ (fun _ => by simp)

/-- **C6**: counter mode is self-inverse: applying `ctr_128u8` twice with the
same keyed function and IV reproduces the input, for every input length. -/
theorem ctr_128u8_involutive (kc : List Nat → List Nat) (iv input : List Nat)
    (hkc : ∀ b, (kc b).length = 16) :
    ctr_128u8 kc iv (ctr_128u8 kc iv input) = input := by
  generalize hL : input.length = L
  induction L using Nat.strong_induction_on generalizing iv input with
  | _ L ih =>
    cases Decidable.em (input = []) with
    | inl he =>
      subst he
      rw [ctr_128u8_nil, ctr_128u8_nil]
    | inr he =>
      have h1 : 1 ≤ input.length := by
        cases input with
        | nil => simp at he
        | cons a l => simp
      have htk : (xorBytes (input.take 16) (kc iv)).length = min input.length 16 := by
        rw [xorBytes_length, hkc, List.length_take]
        omega
      rw [ctr_128u8_cons kc iv input he]
      cases Decidable.em (input.length ≤ 16) with
      | inl hle =>
        have hdrop : input.drop 16 = [] := by
          apply List.eq_nil_of_length_eq_zero
          simp
          omega
        rw [hdrop, ctr_128u8_nil, List.append_nil]
        have hne : xorBytes (input.take 16) (kc iv) ≠ [] := by
          intro hcon
          have := congrArg List.length hcon
          rw [htk] at this
          simp only [List.length_nil] at this
          omega
        rw [ctr_128u8_cons kc iv _ hne]
        have htake : (xorBytes (input.take 16) (kc iv)).take 16 =
            xorBytes (input.take 16) (kc iv) :=
          List.take_of_length_le (by rw [htk]; omega)
        have hdrop2 : (xorBytes (input.take 16) (kc iv)).drop 16 = [] := by
          apply List.eq_nil_of_length_eq_zero
          rw [List.length_drop, htk]
          omega
        rw [htake, hdrop2, ctr_128u8_nil, List.append_nil,
          xorBytes_cancel _ _ (by rw [List.length_take, hkc]; omega),
          List.take_of_length_le hle]
      | inr hgt =>
        have hlen16 : (xorBytes (input.take 16) (kc iv)).length = 16 := by
          rw [htk]; omega
        have hne : xorBytes (input.take 16) (kc iv) ++
            ctr_128u8 kc (incrCounter iv) (input.drop 16) ≠ [] := by
          intro hcon
          have := congrArg List.length hcon
          simp [hlen16] at this
        rw [ctr_128u8_cons kc iv _ hne]
        have htake : (xorBytes (input.take 16) (kc iv) ++
            ctr_128u8 kc (incrCounter iv) (input.drop 16)).take 16 =
            xorBytes (input.take 16) (kc iv) := List.take_left' hlen16
        have hdrop : (xorBytes (input.take 16) (kc iv) ++
            ctr_128u8 kc (incrCounter iv) (input.drop 16)).drop 16 =
            ctr_128u8 kc (incrCounter iv) (input.drop 16) := List.drop_left' hlen16
        rw [htake, hdrop,
          xorBytes_cancel _ _ (by rw [List.length_take, hkc]; omega),
          ih (input.drop 16).length (by simp; omega) (incrCounter iv) (input.drop 16) rfl]
        exact List.take_append_drop 16 input

/-- Witness for C6 at a concrete function, IV and input. -/
theorem ctr_128u8_involutive_witness :
    ctr_128u8 (fun _ => List.replicate 16 0) (List.replicate 16 0)
        (ctr_128u8 (fun _ => List.replicate 16 0) (List.replicate 16 0) [1, 2, 3]) =
      [1, 2, 3] :=
  ctr_128u8_involutive _ _ _ (fun _ => by simp)

/-- **C2** (divergence at the failing input): incrementing the all-0xFF
counter does not wrap to the all-zero counter.  After the carry reaches index
0, the loop wraps the index back to 15 and increments the (just zeroed) last
byte a second time, producing 00..01 instead of 00..00. -/
theorem incrCounter_all_ff :
    incrCounter (List.replicate 16 0xff) = List.replicate 15 0 ++ [1] ∧
    incrCounter (List.replicate 16 0xff) ≠ List.replicate 16 0 := by
  constructor
  · decide
  · decide

/-- **C9**: on the empty input (which passes the multiple-of-16 check),
`inv_cbc_128u8` reaches the error branch of the `output_vec[input_len-1]`
read (`input_len = 0`, empty `output_vec`), for every keyed function and IV,
instead of returning `Some` of an empty message. -/
theorem inv_cbc_128u8_empty (kic : List Nat → List Nat) (iv : List Nat) :
    inv_cbc_128u8 kic iv [] = none := rfl

/-- Counterexample for C3 as stated: the empty input has length a multiple of
16, yet `inv_cbc_128u8` does not return a `Some` result on it (the embedding
reaches the out-of-bounds indexing branch, modelled by the outer `none`). -/
theorem inv_cbc_128u8_empty_no_result :
    (List.length ([] : List Nat)) % 16 = 0 ∧
      inv_cbc_128u8 (fun b => b) (List.replicate 16 0) [] = none :=
  ⟨rfl, rfl⟩

/-- All blocks produced by `invCbcBlocks` have 16 bytes, provided the keyed
function returns 16-byte blocks and cursor/ciphertext blocks have 16 bytes. -/
theorem invCbcBlocks_block_lengths (kic : List Nat → List Nat)
    (hkic : ∀ b, (kic b).length = 16) :
    ∀ (blocks : List (List Nat)) (prev : List Nat), prev.length = 16 →
      (∀ b ∈ blocks, b.length = 16) →
      ∀ o ∈ invCbcBlocks kic prev blocks, o.length = 16 := by
  intro blocks
  induction blocks with
  | nil => intro prev _ _ o ho; simp [invCbcBlocks] at ho
  | cons c rest ih =>
    intro prev hprev hall o ho
    simp only [invCbcBlocks, List.mem_cons] at ho
    rcases ho with rfl | ho
    · rw [xorBytes_length, hkic, hprev]
      exact Nat.min_self 16
    · exact ih c (hall c (by simp)) (fun b hb => hall b (by simp [hb])) o ho

/-- Joining blocks of 16 bytes each gives `16 * count` bytes. -/
theorem join_length_16 (blocks : List (List Nat)) (h : ∀ b ∈ blocks, b.length = 16) :
    blocks.join.length = 16 * blocks.length := by
  induction blocks with
  | nil => rfl
  | cons b rest ih =>
    simp only [List.join, List.flatten_cons, List.length_append, List.length_cons,
      h b (by simp), ih (fun x hx => h x (by simp [hx]))]
    ring

theorem chunks16_lengths (input : List Nat) (h : input.length % 16 = 0) :
    ∀ b ∈ chunks16 input, b.length = 16 := by
  intro b hb
  simp only [chunks16, List.mem_map, List.mem_range] at hb
  obtain ⟨k, hk, rfl⟩ := hb
  rw [List.length_take, List.length_drop]
  omega

theorem chunks16_count (input : List Nat) : (chunks16 input).length = input.length / 16 := by
  simp [chunks16]

/-- `invCbcBlocks` produces one output block per ciphertext block. -/
theorem invCbcBlocks_count (kic : List Nat -> List Nat) :
    forall (prev : List Nat) (blocks : List (List Nat)),
      (invCbcBlocks kic prev blocks).length = blocks.length := by
  intro prev blocks
  induction blocks generalizing prev with
  | nil => rfl
  | cons c rest ih => simp [invCbcBlocks, ih]

/-- **C3** (amended): `inv_cbc_128u8` reports the recoverable format error
(Rust `None`) iff the input length is not a multiple of 16, and succeeds with
a `Some` result for every input of *nonzero* multiple-of-16 length; on the
empty input it instead reaches the out-of-bounds padding read (see C9). -/
theorem inv_cbc_128u8_error_iff (kic : List Nat → List Nat) (iv input : List Nat)
    (hkic : ∀ b, (kic b).length = 16) (hiv : iv.length = 16) :
    (inv_cbc_128u8 kic iv input = some none ↔ input.length % 16 ≠ 0) ∧
    (input.length % 16 = 0 → input ≠ [] →
      ∃ m, inv_cbc_128u8 kic iv input = some (some m)) := by
  have hout : input.length % 16 = 0 →
      ((invCbcBlocks kic iv (chunks16 input)).join).length = input.length := by
    intro h0
    rw [join_length_16 _ (invCbcBlocks_block_lengths kic hkic _ iv hiv (chunks16_lengths input h0))]
    rw [invCbcBlocks_count, chunks16_count]
    omega
  constructor
  · constructor
    · intro hres
      by_contra h0
      rcases Decidable.em (input = []) with rfl | hne
      · have hnil : inv_cbc_128u8 kic iv [] = none := rfl
        rw [hnil] at hres
        exact Option.noConfusion hres
      · have h1 : 1 ≤ input.length := by
          cases input with
          | nil => simp at hne
          | cons a l => simp
        obtain ⟨v, hv⟩ : ∃ v, ((invCbcBlocks kic iv (chunks16 input)).join)[input.length - 1]? =
            some v := by
          rw [List.getElem?_eq_getElem (by rw [hout h0]; omega)]
          exact ⟨_, rfl⟩
        unfold inv_cbc_128u8 at hres
        rw [if_neg (by omega)] at hres
        simp only [hv] at hres
        exact Option.noConfusion (Option.some.inj hres)
    · intro h0
      unfold inv_cbc_128u8
      rw [if_pos h0]
  · intro h0 hne
    have h1 : 1 ≤ input.length := by
      cases input with
      | nil => simp at hne
      | cons a l => simp
    obtain ⟨v, hv⟩ : ∃ v, ((invCbcBlocks kic iv (chunks16 input)).join)[input.length - 1]? =
        some v := by
      rw [List.getElem?_eq_getElem (by rw [hout h0]; omega)]
      exact ⟨_, rfl⟩
    unfold inv_cbc_128u8
    rw [if_neg (by omega)]
    simp only [hv]
    exact ⟨_, rfl⟩

/-- Witness for C3 at a concrete function, IV and 16-byte input. -/
theorem inv_cbc_128u8_error_iff_witness :
    ∃ m, inv_cbc_128u8 (fun _ => List.replicate 16 0) (List.replicate 16 0)
        (List.replicate 16 7) = some (some m) :=
  (inv_cbc_128u8_error_iff (fun _ => List.replicate 16 0) (List.replicate 16 0)
      (List.replicate 16 7) (fun _ => by simp) (by simp)).2 (by simp) (by simp)

theorem pkcs7Run_next_none {st : List Nat × Bool} (h : pkcs7Next st = none) :
    ∀ fuel, pkcs7Run fuel st = [] := by
  intro fuel
  cases fuel with
  | zero => rfl
  | succ fuel => simp [pkcs7Run, h]

theorem pkcs7Run_next_some {st st' : List Nat × Bool} {b : List Nat}
    (h : pkcs7Next st = some (b, st')) (fuel : Nat) :
    pkcs7Run (fuel + 1) st = b :: pkcs7Run fuel st' := by
  simp [pkcs7Run, h]

theorem pkcs7Indexed_small {msg : List Nat} (h : msg.length < 16) :
    pkcs7Indexed msg =
      [msg ++ List.replicate (16 - msg.length) (16 - msg.length)] := by
  unfold pkcs7Indexed
  rw [Nat.div_eq_of_lt h]
  have hr : List.range (0 + 1) = [0] := rfl
  rw [hr]
  simp only [List.map_cons, List.map_nil]
  unfold pkcs7Block
  rw [Nat.mul_zero, List.drop_zero, List.take_of_length_le (by omega)]

theorem pkcs7Indexed_cons {msg : List Nat} (h : 16 ≤ msg.length) :
    pkcs7Indexed msg = msg.take 16 :: pkcs7Indexed (msg.drop 16) := by
  unfold pkcs7Indexed
  rw [List.length_drop,
    show msg.length / 16 + 1 = (msg.length - 16) / 16 + 1 + 1 by omega,
    List.range_succ_eq_map]
  simp only [List.map_cons, List.map_map]
  congr 1
  · unfold pkcs7Block
    rw [Nat.mul_zero, List.drop_zero]
    have hl : (msg.take 16).length = 16 := by
      rw [List.length_take]
      omega
    rw [hl]
    simp
  · apply List.map_congr_left
    intro k _
    unfold pkcs7Block
    simp only [Function.comp_apply, List.drop_drop]
    rw [show 16 * (k + 1) = 16 + 16 * k by ring]

theorem pkcs7Run_eq_indexed : ∀ (L : Nat) (msg : List Nat), msg.length = L →
    ∀ fuel, msg.length / 16 + 2 ≤ fuel → pkcs7Run fuel (msg, false) = pkcs7Indexed msg := by
  intro L
  induction L using Nat.strong_induction_on with
  | _ L ih =>
    intro msg hL fuel hfuel
    cases msg with
    | nil =>
      have h1 : pkcs7Next (([] : List Nat), false) =
          some (List.replicate 16 16, ([], true)) := rfl
      have h2 : pkcs7Next (([] : List Nat), true) = none := rfl
      obtain ⟨f, rfl⟩ : ∃ f, fuel = f + 1 := by
        cases fuel with
        | zero => simp at hfuel
        | succ f => exact ⟨f, rfl⟩
      rw [pkcs7Run_next_some h1, pkcs7Run_next_none h2]
      rw [pkcs7Indexed_small (by simp)]
      simp
    | cons a t =>
      rcases Decidable.em ((a :: t).length < 16) with hlt | hge
      · have hslice : (a :: t).take 16 = a :: t := List.take_of_length_le (by omega)
        have hrem : 0 < 16 - ((a :: t).take 16).length := by
          rw [hslice]
          omega
        have hdrop : (a :: t).drop 16 = [] :=
          List.eq_nil_of_length_eq_zero (by rw [List.length_drop]; omega)
        have h1 : pkcs7Next ((a :: t), false) =
            some ((a :: t).take 16 ++
                List.replicate (16 - ((a :: t).take 16).length)
                  (16 - ((a :: t).take 16).length),
              ((a :: t).drop 16, false || decide (0 < 16 - ((a :: t).take 16).length))) := rfl
        rw [Bool.false_or, decide_eq_true hrem, hdrop] at h1
        obtain ⟨f, rfl⟩ : ∃ f, fuel = f + 1 := by
          cases fuel with
          | zero => simp at hfuel
          | succ f => exact ⟨f, rfl⟩
        rw [pkcs7Run_next_some h1, pkcs7Run_next_none (show pkcs7Next ([], true) = none from rfl)]
        rw [pkcs7Indexed_small hlt, hslice]
      · have hslice : ((a :: t).take 16).length = 16 := by
          rw [List.length_take]
          omega
        have hrem : 16 - ((a :: t).take 16).length = 0 := by omega
        have h1 : pkcs7Next ((a :: t), false) =
            some ((a :: t).take 16 ++
                List.replicate (16 - ((a :: t).take 16).length)
                  (16 - ((a :: t).take 16).length),
              ((a :: t).drop 16, false || decide (0 < 16 - ((a :: t).take 16).length))) := rfl
        rw [Bool.false_or, hrem] at h1
        rw [show decide (0 < 0) = false from rfl] at h1
        simp only [List.replicate_zero, List.append_nil] at h1
        obtain ⟨f, rfl⟩ : ∃ f, fuel = f + 1 := by
          cases fuel with
          | zero => simp at hfuel
          | succ f => exact ⟨f, rfl⟩
        rw [pkcs7Run_next_some h1]
        rw [ih ((a :: t).drop 16).length (by rw [List.length_drop]; omega) _ rfl f
          (by rw [List.length_drop]; omega)]
        rw [show pkcs7Indexed (a :: t) = (a :: t).take 16 :: pkcs7Indexed ((a :: t).drop 16)
          from pkcs7Indexed_cons (by omega)]

/-- The collected iterator output equals its closed form. -/
theorem pkcs7_blocks_eq_indexed (msg : List Nat) : pkcs7_blocks msg = pkcs7Indexed msg :=
  pkcs7Run_eq_indexed msg.length msg rfl _ (Nat.le_refl _)

theorem pkcs7Block_length (msg : List Nat) (k : Nat) : (pkcs7Block msg k).length = 16 := by
  unfold pkcs7Block
  rw [List.length_append, List.length_replicate, List.length_take]
  omega

theorem pkcs7Indexed_getD (msg : List Nat) (k : Nat) (h : k < msg.length / 16 + 1) :
    (pkcs7Indexed msg).getD k [] = pkcs7Block msg k := by
  unfold pkcs7Indexed
  rw [List.getD_eq_getElem?_getD, List.getElem?_map, List.getElem?_range h]
  rfl

/-- **C7**: the padding iterator emits every full 16-byte chunk unmodified; a
short final chunk is right-padded with the byte value equal to the number of
padding bytes; a block-aligned message gets one extra block of sixteen 16s;
the number of emitted blocks equals the `block_count` reported up front
(`len/16 + 1`); and the padded size is a nonzero multiple of 16, strictly
greater than the length of a block-aligned message. -/
theorem pkcs7_padding_spec (msg : List Nat) :
    (pkcs7_blocks msg).length = pkcs7_block_count msg ∧
    (∀ k, k < msg.length / 16 →
      (pkcs7_blocks msg).getD k [] = (msg.drop (16 * k)).take 16 ∧
      ((msg.drop (16 * k)).take 16).length = 16) ∧
    (msg.length % 16 ≠ 0 →
      (pkcs7_blocks msg).getD (msg.length / 16) [] =
        msg.drop (16 * (msg.length / 16)) ++
          List.replicate (16 - msg.length % 16) (16 - msg.length % 16)) ∧
    (msg.length % 16 = 0 →
      (pkcs7_blocks msg).getD (msg.length / 16) [] = List.replicate 16 16) ∧
    (pkcs7_blocks msg).join.length = 16 * pkcs7_block_count msg ∧
    0 < (pkcs7_blocks msg).join.length ∧
    (pkcs7_blocks msg).join.length % 16 = 0 ∧
    (msg.length % 16 = 0 → msg.length < (pkcs7_blocks msg).join.length) := by
  have hall : ∀ b ∈ pkcs7_blocks msg, b.length = 16 := by
    intro b hb
    rw [pkcs7_blocks_eq_indexed] at hb
    unfold pkcs7Indexed at hb
    obtain ⟨k, _, rfl⟩ := List.mem_map.mp hb
    exact pkcs7Block_length msg k
  have hcount : (pkcs7_blocks msg).length = pkcs7_block_count msg := by
    rw [pkcs7_blocks_eq_indexed]
    unfold pkcs7Indexed pkcs7_block_count
    simp
  have hjoin : (pkcs7_blocks msg).join.length = 16 * pkcs7_block_count msg := by
    rw [join_length_16 _ hall, hcount]
  refine ⟨hcount, ?_, ?_, ?_, hjoin, ?_, ?_, ?_⟩
  · intro k hk
    have hclen : ((msg.drop (16 * k)).take 16).length = 16 := by
      rw [List.length_take, List.length_drop]
      omega
    constructor
    · rw [pkcs7_blocks_eq_indexed, pkcs7Indexed_getD msg k (by omega)]
      unfold pkcs7Block
      rw [hclen]
      simp
    · exact hclen
  · intro hmod
    rw [pkcs7_blocks_eq_indexed, pkcs7Indexed_getD msg _ (by omega)]
    unfold pkcs7Block
    have hlen : (msg.drop (16 * (msg.length / 16))).length = msg.length % 16 := by
      rw [List.length_drop]
      omega
    rw [List.take_of_length_le (by omega), hlen]
  · intro hmod
    rw [pkcs7_blocks_eq_indexed, pkcs7Indexed_getD msg _ (by omega)]
    unfold pkcs7Block
    have hdrop : msg.drop (16 * (msg.length / 16)) = [] :=
      List.eq_nil_of_length_eq_zero (by rw [List.length_drop]; omega)
    rw [hdrop]
    rfl
  · rw [hjoin]
    unfold pkcs7_block_count
    omega
  · rw [hjoin]
    unfold pkcs7_block_count
    omega
  · intro hmod
    rw [hjoin]
    unfold pkcs7_block_count
    omega

/-! ### CBC round-trip through PKCS#7 padding (claim C4) -/
theorem pkcs7_blocks_count (msg : List Nat) :
    (pkcs7_blocks msg).length = msg.length / 16 + 1 := by
  rw [pkcs7_blocks_eq_indexed]
  unfold pkcs7Indexed
  simp

theorem pkcs7Indexed_join : ∀ (L : Nat) (msg : List Nat), msg.length = L →
    (pkcs7Indexed msg).join =
      msg ++ List.replicate (16 - msg.length % 16) (16 - msg.length % 16) := by
  intro L
  induction L using Nat.strong_induction_on with
  | _ L ih =>
    intro msg hL
    rcases Decidable.em (msg.length < 16) with hlt | hge
    · rw [pkcs7Indexed_small hlt]
      have hmod : msg.length % 16 = msg.length := Nat.mod_eq_of_lt hlt
      rw [hmod]
      simp
    · rw [pkcs7Indexed_cons (by omega)]
      have hrec := ih (msg.drop 16).length (by rw [List.length_drop]; omega) (msg.drop 16) rfl
      rw [List.length_drop] at hrec
      have hmod : (msg.length - 16) % 16 = msg.length % 16 := by omega
      rw [hmod] at hrec
      simp only [List.flatten_cons, hrec]
      rw [← List.append_assoc, List.take_append_drop]

/-- The padded blocks joined back together: the message followed by
`16 - len % 16` padding bytes of that same value. -/
theorem pkcs7_blocks_join (msg : List Nat) :
    (pkcs7_blocks msg).join =
      msg ++ List.replicate (16 - msg.length % 16) (16 - msg.length % 16) := by
  rw [pkcs7_blocks_eq_indexed]
  exact pkcs7Indexed_join msg.length msg rfl

/-- Every padded block has 16 bytes, all of them below 256 when the message
bytes are. -/
theorem pkcs7_blocks_wf (msg : List Nat) (hmsg : ∀ x ∈ msg, x < 256) :
    ∀ b ∈ pkcs7_blocks msg, b.length = 16 ∧ ∀ x ∈ b, x < 256 := by
  intro b hb
  rw [pkcs7_blocks_eq_indexed] at hb
  unfold pkcs7Indexed at hb
  obtain ⟨k, -, rfl⟩ := List.mem_map.mp hb
  refine ⟨pkcs7Block_length msg k, ?_⟩
  intro x hx
  unfold pkcs7Block at hx
  rw [List.mem_append] at hx
  rcases hx with hx | hx
  · exact hmsg x (List.mem_of_mem_drop (List.mem_of_mem_take hx))
  · have hv := List.eq_of_mem_replicate hx
    omega

theorem xorBytes_mem_lt {a b : List Nat} (ha : ∀ x ∈ a, x < 256)
    (hb : ∀ x ∈ b, x < 256) : ∀ x ∈ xorBytes a b, x < 256 := by
  induction a generalizing b with
  | nil => intro x hx; simp [xorBytes] at hx
  | cons y a ih =>
    intro x hx
    cases b with
    | nil => simp [xorBytes] at hx
    | cons z b =>
      simp only [xorBytes, List.zipWith_cons_cons, List.mem_cons] at hx
      rcases hx with rfl | hx
      · exact GFByte.xor_lt_256 (ha y (by simp)) (hb z (by simp))
      · exact ih (fun u hu => ha u (by simp [hu])) (fun u hu => hb u (by simp [hu])) x hx

theorem cbc_128u8_cons (kc : List Nat → List Nat) (prev b : List Nat)
    (rest : List (List Nat)) :
    cbc_128u8 kc prev (b :: rest) =
      kc (xorBytes b prev) ++ cbc_128u8 kc (kc (xorBytes b prev)) rest := rfl

theorem invCbcBlocks_cons (kic : List Nat → List Nat) (prev c : List Nat)
    (rest : List (List Nat)) :
    invCbcBlocks kic prev (c :: rest) =
      xorBytes (kic c) prev :: invCbcBlocks kic c rest := rfl

theorem cbc_128u8_length (kc : List Nat → List Nat) (hkc : ∀ b, (kc b).length = 16) :
    ∀ (bs : List (List Nat)) (prev : List Nat),
      (cbc_128u8 kc prev bs).length = 16 * bs.length := by
  intro bs
  induction bs with
  | nil => intro prev; rfl
  | cons b rest ih =>
    intro prev
    rw [cbc_128u8_cons, List.length_append, hkc, ih]
    simp only [List.length_cons]
    ring

theorem chunks16_cons (c t : List Nat) (hc : c.length = 16) :
    chunks16 (c ++ t) = c :: chunks16 t := by
  unfold chunks16
  rw [List.length_append, hc,
    show (16 + t.length) / 16 = t.length / 16 + 1 by omega,
    List.range_succ_eq_map]
  simp only [List.map_cons, List.map_map, Nat.mul_zero, List.drop_zero]
  congr 1
  · exact List.take_left' hc
  · apply List.map_congr_left
    intro k _
    simp only [Function.comp_apply]
    rw [show 16 * (k + 1) = 16 + 16 * k by ring, ← List.drop_drop, List.drop_left' hc]

/-- CBC decryption of CBC encryption recovers the plaintext blocks, for any
inverse pair of keyed 16-byte block functions. -/
theorem invCbcBlocks_cbc (kc kic : List Nat → List Nat)
    (hkc_len : ∀ b, (kc b).length = 16)
    (hkc_lt : ∀ b, ∀ x ∈ kc b, x < 256)
    (hinv : ∀ b, b.length = 16 → (∀ x ∈ b, x < 256) → kic (kc b) = b) :
    ∀ (bs : List (List Nat)) (prev : List Nat), prev.length = 16 →
      (∀ x ∈ prev, x < 256) →
      (∀ b ∈ bs, b.length = 16 ∧ ∀ x ∈ b, x < 256) →
      invCbcBlocks kic prev (chunks16 (cbc_128u8 kc prev bs)) = bs := by
  intro bs
  induction bs with
  | nil =>
    intro prev _ _ _
    simp [cbc_128u8, chunks16, invCbcBlocks]
  | cons b rest ih =>
    intro prev hp hpb hall
    rw [cbc_128u8_cons, chunks16_cons _ _ (hkc_len _), invCbcBlocks_cons]
    have hb16 := (hall b (by simp)).1
    have hbb := (hall b (by simp)).2
    have hxlen : (xorBytes b prev).length = 16 := by
      rw [xorBytes_length, hb16, hp]
      exact Nat.min_self 16
    have hxlt : ∀ x ∈ xorBytes b prev, x < 256 := xorBytes_mem_lt hbb hpb
    rw [hinv _ hxlen hxlt, xorBytes_cancel b prev (by omega)]
    congr 1
    exact ih (kc (xorBytes b prev)) (hkc_len _) (hkc_lt _)
      (fun q hq => hall q (by simp [hq]))

/-- **C4**: for every byte message, IV and inverse pair of keyed block
functions (such as AES `cipher`/`inv_cipher` under one key schedule), CBC
decryption of the CBC encryption of the PKCS#7-padded message, followed by
the built-in unpadding, reproduces the message.  The bound `hfit` reflects
that Rust slice lengths are `usize` values. -/
theorem cbc_pkcs7_roundtrip (kc kic : List Nat → List Nat) (iv msg : List Nat)
    (hiv : iv.length = 16) (hivb : ∀ x ∈ iv, x < 256)
    (hmsg : ∀ x ∈ msg, x < 256)
    (hkc_len : ∀ b, (kc b).length = 16)
    (hkc_lt : ∀ b, ∀ x ∈ kc b, x < 256)
    (hinv : ∀ b, b.length = 16 → (∀ x ∈ b, x < 256) → kic (kc b) = b)
    (hfit : msg.length + 16 < 2 ^ 64) :
    inv_cbc_128u8 kic iv (cbc_128u8 kc iv (pkcs7_blocks msg)) = some (some msg) := by
  have hctlen : (cbc_128u8 kc iv (pkcs7_blocks msg)).length = 16 * (msg.length / 16 + 1) := by
    rw [cbc_128u8_length kc hkc_len, pkcs7_blocks_count]
  have hLpb : (cbc_128u8 kc iv (pkcs7_blocks msg)).length =
      msg.length + (16 - msg.length % 16) := by omega
  have hinvblocks : invCbcBlocks kic iv (chunks16 (cbc_128u8 kc iv (pkcs7_blocks msg))) =
      pkcs7_blocks msg :=
    invCbcBlocks_cbc kc kic hkc_len hkc_lt hinv (pkcs7_blocks msg) iv hiv hivb
      (pkcs7_blocks_wf msg hmsg)
  unfold inv_cbc_128u8
  rw [if_neg (by omega)]
  rw [hinvblocks, pkcs7_blocks_join]
  have hidx : (msg ++ List.replicate (16 - msg.length % 16) (16 - msg.length % 16))[
      (cbc_128u8 kc iv (pkcs7_blocks msg)).length - 1]? = some (16 - msg.length % 16) := by
    rw [hLpb, List.getElem?_append_right (by omega)]
    rw [List.getElem?_replicate, if_pos (by omega)]
  rw [hidx]
  have harg : ((cbc_128u8 kc iv (pkcs7_blocks msg)).length + 2 ^ 64 -
      (16 - msg.length % 16)) % 2 ^ 64 = msg.length := by
    rw [hLpb, show msg.length + (16 - msg.length % 16) + 2 ^ 64 - (16 - msg.length % 16) =
      2 ^ 64 + msg.length by omega, Nat.add_mod_left]
    exact Nat.mod_eq_of_lt (by omega)
  simp only [harg]
  rw [List.take_left' rfl]

/-- Witness for C4 at a concrete function pair, IV and message. -/
theorem cbc_pkcs7_roundtrip_witness :
    inv_cbc_128u8 (fun b => ((b ++ List.replicate 16 0).take 16).map (· % 256))
        (List.replicate 16 0)
        (cbc_128u8 (fun b => ((b ++ List.replicate 16 0).take 16).map (· % 256))
          (List.replicate 16 0) (pkcs7_blocks [1, 2, 3])) = some (some [1, 2, 3]) := by
  apply cbc_pkcs7_roundtrip
  · simp
  · intro x hx
    rw [List.eq_of_mem_replicate hx]
    norm_num
  · decide
  · intro b
    rw [List.length_map, List.length_take, List.length_append]
    simp
  · intro b x hx
    rw [List.mem_map] at hx
    obtain ⟨y, -, rfl⟩ := hx
    exact Nat.mod_lt _ (by norm_num)
  · intro b hb hbw
    have hfb : ((b ++ List.replicate 16 0).take 16).map (· % 256) = b := by
      rw [List.take_left' hb]
      calc b.map (· % 256) = b.map id :=
            List.map_congr_left (fun x hx => Nat.mod_eq_of_lt (hbw x hx))
        _ = b := List.map_id b
    simp only [hfb]
  · decide

end CourseraCrypto
